import Mathlib

/-!
# Verification of the temporal direct-manipulation engine

Shallow embedding of the date/geometry utilities, gesture commit logic and
the overlap layout engine of the `obsidian-bases-views` repository, together
with proofs of the specification claims about them.

Modelling conventions:
* Calendar instants are integers (`Int`): day-granular code (calendar event
  dates, gantt day deltas) uses the integer as a day number, so that
  `addDays d k = d + k` and `differenceInDays a b = a - b`; the window
  derivation uses the integer as an abstract timestamp (`getTime`).
* Pixel quantities are rationals (`ℚ`), with JavaScript `Math.round`
  modelled exactly as `⌊x + 1/2⌋` and `Math.floor` as `⌊x⌋`.
* `date-fns` `startOfMonth` / `endOfMonth` are external library functions;
  they enter only as opaque parameters (`som`, `eom`) applied verbatim on
  both sides of the statements that mention them.
* A persistence call `updateProperty(file, prop, value)` is modelled as a
  returned write record; "no write" is `none` / the empty list.
-/

namespace BasesViews

/-- JavaScript `Math.round`: round half toward positive infinity. -/
def jsRound (q : ℚ) : Int := ⌊q + 1/2⌋

/-- JavaScript `Math.floor`. -/
def jsFloor (q : ℚ) : Int := ⌊q⌋

/-! ## Geometry-Time Mapper (src/views/gantt/utils/dateCalculations.ts) -/

/-- Embeds `calculateDateFromDelta` (dateCalculations.ts:83-90):
`daysDelta = Math.round(pixelDelta / pixelsPerDay); addDays(originalDate, daysDelta)`. -/
def calculateDateFromDelta (originalDate : Int) (pixelDelta pixelsPerDay : ℚ) : Int :=
  originalDate + jsRound (pixelDelta / pixelsPerDay)

/-- Embeds `calculateTaskPosition` (dateCalculations.ts:37-53).
Dates are day numbers; returns `(left, width)` percentages. -/
def calculateTaskPosition (taskStart taskEnd timelineStart timelineEnd : Int) : ℚ × ℚ :=
  let timelineSpan : Int := (timelineEnd - timelineStart) + 1
  let taskStartOffset : Int := taskStart - timelineStart
  let taskSpan : Int := (taskEnd - taskStart) + 1
  (((taskStartOffset : ℚ) / (timelineSpan : ℚ)) * 100,
   ((taskSpan : ℚ) / (timelineSpan : ℚ)) * 100)

/-- A gantt task's date bounds (the fields of `Task` used by the date logic);
`startDate`/`endDate` are abstract timestamps. -/
structure GTask where
  startDate : Int
  endDate : Int
  startDateProperty : String
  endDateProperty : String
deriving DecidableEq

/-- Embeds `calculateTimelineRange` (dateCalculations.ts:11-25).
`som`/`eom` stand for the external `startOfMonth`/`endOfMonth`, `now` for
`new Date()`.  `Math.min`/`Math.max` over the spread array are folds; the
inner `[]` branch is unreachable (a nonempty task list always yields a
nonempty date list, and `Math.min()` of nothing would be `+Infinity`). -/
def calculateTimelineRange (som eom : Int → Int) (now : Int) (tasks : List GTask) :
    Int × Int :=
  if tasks.isEmpty then
    (som now, eom now)
  else
    let allDates := tasks.flatMap fun t => [t.startDate, t.endDate]
    match allDates with
    | [] => (som now, eom now)
    | d :: ds => (som (ds.foldl min d), eom (ds.foldl max d))

/-! ## Gesture sessions: writes -/

/-- Which resize handle is active (`'start' | 'end'`). -/
inductive Handle where
  | hStart
  | hEnd
deriving DecidableEq

/-- One `updateProperty(file, prop, dateValue)` call with a date payload;
the serialized date is kept as the underlying instant. -/
structure DateWrite where
  prop : String
  value : Int
deriving DecidableEq

/-- One `updateProperty(file, prop, stringValue)` call with a string payload. -/
structure StrWrite where
  prop : String
  value : String
deriving DecidableEq

/-! ### Gantt live-write resize (src/views/gantt/hooks/useTaskResize.ts) -/

/-- Embeds the body of `handleMouseMove` inside `handleResizeStart`
(useTaskResize.ts:77-103): compute the candidate date from the pixel delta;
write it only when it differs from the original and passes the
start-before-end validation; otherwise issue no write.  Returns the write of
this move, or `none`. -/
def ganttResizeMove (task : GTask) (handle : Handle) (deltaX pixelsPerDay : ℚ) :
    Option DateWrite :=
  let originalDate := match handle with
    | .hStart => task.startDate
    | .hEnd => task.endDate
  let newDate := calculateDateFromDelta originalDate deltaX pixelsPerDay
  let propertyName := match handle with
    | .hStart => task.startDateProperty
    | .hEnd => task.endDateProperty
  if newDate ≠ originalDate then
    match handle with
    | .hStart =>
      if newDate ≥ task.endDate then none
      else some ⟨propertyName, newDate⟩
    | .hEnd =>
      if newDate ≤ task.startDate then none
      else some ⟨propertyName, newDate⟩
  else none

/-- The writes issued across a whole live-write resize gesture: one
`handleMouseMove` per recorded pointer delta, skipped moves contributing
nothing. -/
def ganttResizeWrites (task : GTask) (handle : Handle) (moves : List ℚ)
    (pixelsPerDay : ℚ) : List DateWrite :=
  moves.filterMap fun deltaX => ganttResizeMove task handle deltaX pixelsPerDay

/-! ### Gantt drag: group resolution (src/views/gantt/hooks/useTaskDrag.ts) -/

/-- A `TaskGroup` as used by the drop-target resolution. -/
structure TaskGroup where
  name : String
  startRow : Int
  rowCount : Int
deriving DecidableEq

/-- The `for (const group of groups)` scan in `findGroupAtPosition`
(useTaskDrag.ts:29-36). -/
def findGroupGo (row : Int) : List TaskGroup → Option String
  | [] => none
  | g :: gs =>
    if g.startRow ≤ row ∧ row < g.startRow + g.rowCount then some g.name
    else findGroupGo row gs

/-- Embeds `findGroupAtPosition` (useTaskDrag.ts:22-37):
`row = Math.floor(y / rowHeight)`, then the first group whose
`[startRow, startRow + rowCount)` contains `row`. -/
def findGroupAtPosition (y : ℚ) (groups : List TaskGroup) (rowHeight : ℚ) :
    Option String :=
  findGroupGo (jsFloor (y / rowHeight)) groups

/-- Embeds the group-update branch of `handleMouseUp`
(useTaskDrag.ts:133-152): guarded by nonempty groups and a truthy
`groupByProperty`; writes only a truthy resolved group that differs from the
original, mapping the synthetic `"No Group"` to the empty string.  Returns
the group write, or `none`. -/
def ganttDragEndGroupWrite (groups : List TaskGroup) (groupByProperty : String)
    (relativeY rowHeight : ℚ) (originalGroup : String) : Option StrWrite :=
  if groups.length > 0 ∧ groupByProperty ≠ "" then
    match findGroupAtPosition relativeY groups rowHeight with
    | some newGroup =>
      if newGroup ≠ "" ∧ newGroup ≠ originalGroup then
        some ⟨groupByProperty, if newGroup = "No Group" then "" else newGroup⟩
      else none
    | none => none
  else none

/-! ### Calendar preview-then-commit resize (src/views/calendar/hooks/useEventResize.ts) -/

/-- A calendar event's temporal fields: `date` is the start; `endDate` may be
absent.  Day-granular (`formatDateString` serializes whole days). -/
structure CalendarEvent where
  date : Int
  endDate : Option Int
deriving DecidableEq

/-- Embeds the per-move body of `handleMouseMove` in `useEventResize`
(useEventResize.ts:72-82): the preview delta is recomputed and stored on
every move, with no validation and no file write. -/
def calendarResizePreview (handle : Handle) (deltaX dayWidth : ℚ) :
    Handle × Int :=
  (handle, jsRound (deltaX / dayWidth))

/-- Embeds the commit branch of `handleMouseUp` in `useEventResize`
(useEventResize.ts:84-113): with the final accumulated `currentDeltaDays`,
write the moved bound only when the delta is non-zero and the non-strict
bound check (`newStart <= originalEnd`, `newEnd >= originalStart`) passes.
Returns the write, or `none`. -/
def calendarResizeCommit (event : CalendarEvent) (dateProperty endDateProperty : String)
    (handle : Handle) (currentDeltaDays : Int) : Option DateWrite :=
  let originalStartDate := event.date
  let originalEndDate := event.endDate.getD event.date
  if currentDeltaDays ≠ 0 then
    match handle with
    | .hStart =>
      let newStartDate := originalStartDate + currentDeltaDays
      if newStartDate ≤ originalEndDate then some ⟨dateProperty, newStartDate⟩
      else none
    | .hEnd =>
      let newEndDate := originalEndDate + currentDeltaDays
      if newEndDate ≥ originalStartDate then some ⟨endDateProperty, newEndDate⟩
      else none
  else none

/-! ### Calendar preview-then-commit drag (useEventResize.ts, `useMultiDayEventDrag`) -/

/-- Embeds the commit branch of `handleMouseUp` in `useMultiDayEventDrag`
(useEventResize.ts:221-238): with a non-zero final `currentDeltaDays`, shift
the snapshotted start and end (`endDate || date`) by the same delta and
write both date properties; with zero delta, write nothing. -/
def multiDayDragCommit (event : CalendarEvent) (dateProperty endDateProperty : String)
    (currentDeltaDays : Int) : List DateWrite :=
  let startDate := event.date
  let endDate := event.endDate.getD event.date
  if currentDeltaDays ≠ 0 then
    [⟨dateProperty, startDate + currentDeltaDays⟩,
     ⟨endDateProperty, endDate + currentDeltaDays⟩]
  else []

/-! ### Calendar month-grid drop (src/views/calendar/hooks/useEventDrag.ts) -/

/-- Embeds the write guard of `handleDragEnd` (useEventDrag.ts:44-56): the
dragged event's date property is written only when the drop target day
differs from the event's current day (`formatDateString` comparison, which
at day granularity is equality of day numbers). -/
def eventDragEnd (event : CalendarEvent) (dateProperty : String) (newDate : Int) :
    Option DateWrite :=
  if event.date ≠ newDate then some ⟨dateProperty, newDate⟩ else none

/-! ## Overlap Layout Engine (src/views/calendar/components/DayView.tsx)

The engine operates on vertical pixel ranges: each event enters pass 1 as a
`(top, height)` pair (`getEventPosition` output; at `HOUR_HEIGHT = 60` one
minute is one pixel, so a `hh:mm` time maps to `60*hh + mm`). -/

/-- A time range as seen by the layout: its scan position and extent. -/
structure Rng where
  top : Int
  height : Int
deriving DecidableEq

/-- An entry of the `activeEvents` list of pass 1. -/
structure ActiveEvent where
  endPos : Int
  column : Nat
deriving DecidableEq

/-- An element of the layout result (`EventWithLayout` without the event
payload). -/
structure Placed where
  top : Int
  height : Int
  column : Nat
  totalColumns : Nat
deriving DecidableEq

/-- Embeds `eventsOverlap` (DayView.tsx:91-96):
`start1 < end2 && end1 > start2`. -/
def eventsOverlap (start1 end1 start2 end2 : Int) : Bool :=
  decide (start1 < end2) && decide (end1 > start2)

/-- Overlap of two placed elements, as used by passes 2 and 3 (ranges
`[top, top + height)`). -/
def placedOverlap (p q : Placed) : Bool :=
  eventsOverlap p.top (p.top + p.height) q.top (q.top + q.height)

/-- The `while (occupiedColumns.has(column)) column++` loop of pass 1
(DayView.tsx:127-131), with explicit fuel (the loop needs at most
`occupied.length + 1` probes to leave the occupied set). -/
def firstFreeColumnAux : Nat → List Nat → Nat → Nat
  | 0, _, c => c
  | fuel + 1, occupied, c =>
    if c ∈ occupied then firstFreeColumnAux fuel occupied (c + 1) else c

/-- The smallest column index not in `occupied` (starting the scan at 0). -/
def firstFreeColumn (occupied : List Nat) : Nat :=
  firstFreeColumnAux (occupied.length + 1) occupied 0

/-- Stable insertion of a range into an already sorted list, keeping the
inserted (originally later) range after every element it ties with.  Models
the stable ascending `sort((a, b) => a.top - b.top)` of DayView.tsx:111. -/
def sortInsert (r : Rng) : List Rng → List Rng
  | [] => [r]
  | x :: xs => if r.top ≤ x.top then r :: x :: xs else x :: sortInsert r xs

/-- Stable sort by `top` ascending (DayView.tsx:111). -/
def sortByTop : List Rng → List Rng
  | [] => []
  | r :: rs => sortInsert r (sortByTop rs)

/-- Pass 1 of `calculateEventLayout` (DayView.tsx:114-147): sweep the sorted
ranges, pruning expired active entries (`endPos > top` kept), assigning each
range the first free column, and appending it to the active list.
`totalColumns` is initialized to 1. -/
def pass1Go (active : List ActiveEvent) : List Rng → List Placed
  | [] => []
  | r :: rs =>
    let stillActive := active.filter fun ae => decide (ae.endPos > r.top)
    let column := firstFreeColumn (stillActive.map (·.column))
    { top := r.top, height := r.height, column := column, totalColumns := 1 } ::
      pass1Go (stillActive ++ [⟨r.top + r.height, column⟩]) rs

/-- Pass 2 of `calculateEventLayout` (DayView.tsx:149-167): for each element,
`totalColumns` becomes one more than the maximum column among itself and all
elements overlapping it (self excluded from the scan by index). -/
def pass2 (l : List Placed) : List Placed :=
  l.enum.map fun ip =>
    let maxColumn := l.enum.foldl
      (fun m jq =>
        if ip.1 ≠ jq.1 ∧ placedOverlap ip.2 jq.2 then max m jq.2.column else m)
      ip.2.column
    { ip.2 with totalColumns := maxColumn + 1 }

/-- One `(i, j)` probe of pass 3 (DayView.tsx:177-190): when the two distinct
elements overlap and their `totalColumns` disagree, both are raised to the
maximum and the `changed` flag is set. -/
def pass3Step (lc : List Placed × Bool) (ij : Nat × Nat) : List Placed × Bool :=
  if ij.1 = ij.2 then lc
  else
    match lc.1.get? ij.1, lc.1.get? ij.2 with
    | some p, some q =>
      if placedOverlap p q then
        let maxCols := max p.totalColumns q.totalColumns
        if p.totalColumns ≠ maxCols ∨ q.totalColumns ≠ maxCols then
          (((lc.1.set ij.1 { p with totalColumns := maxCols }).set ij.2
              { q with totalColumns := maxCols }), true)
        else lc
      else lc
    | _, _ => lc

/-- The index pairs visited by one full pass of the doubly nested loop of
pass 3, in program order. -/
def indexPairs (n : Nat) : List (Nat × Nat) :=
  (List.range n).flatMap fun i => (List.range n).map fun j => (i, j)

/-- One full scan of pass 3 (`changed = false; for i ... for j ...`). -/
def pass3Pass (l : List Placed) : List Placed × Bool :=
  (indexPairs l.length).foldl pass3Step (l, false)

/-- The `while (changed)` loop of pass 3 (DayView.tsx:170-192), with fuel.
`calculateEventLayout` supplies fuel provably past the loop's termination
bound, so the fueled loop reaches the same quiescent state the `while` loop
exits in. -/
def pass3Loop : Nat → List Placed → List Placed
  | 0, l => l
  | fuel + 1, l =>
    let lc := pass3Pass l
    if lc.2 then pass3Loop fuel lc.1 else lc.1

/-- The largest `totalColumns` value in the list (0 if empty). -/
def maxTotalColumns (l : List Placed) : Nat :=
  (l.map (·.totalColumns)).foldl max 0

/-- Embeds `calculateEventLayout` (DayView.tsx:101-195) on the ranges of the
events: stable sort by `top`, sweep-assign columns, local width estimate,
then the cluster-consistency fixpoint.  Fuel `n * M + 1` dominates the
number of changing scans (each raises the `totalColumns` sum, which pass 3
keeps bounded by `n * M`). -/
def calculateEventLayout (events : List Rng) : List Placed :=
  let afterPass2 := pass2 (pass1Go [] (sortByTop events))
  pass3Loop (afterPass2.length * maxTotalColumns afterPass2 + 1) afterPass2

/-- The order the layout sorts by. -/
def rngLE (a b : Rng) : Prop := a.top ≤ b.top

/-- `l'` is `l` with the same geometry and columns, positionwise, and
possibly larger `totalColumns`.  Every pass-3 step evolves the list. -/
def Evolves (l l' : List Placed) : Prop :=
  l'.length = l.length ∧ ∀ i p, l.get? i = some p → ∃ p', l'.get? i = some p' ∧
    p'.top = p.top ∧ p'.height = p.height ∧ p'.column = p.column ∧
    p.totalColumns ≤ p'.totalColumns

/-- The sum of all `totalColumns` values (the termination measure of the
pass-3 fixpoint loop). -/
def tcSum (l : List Placed) : Nat := (l.map (·.totalColumns)).sum

/-- Every element's `totalColumns` is at most `M` (position-indexed). -/
def tcBounded (l : List Placed) (M : Nat) : Prop :=
  ∀ i p, l.get? i = some p → p.totalColumns ≤ M

/-- Two result indices are adjacent when they are distinct and their
elements' ranges overlap. -/
def overlapAdj (l : List Placed) (i j : Nat) : Prop :=
  ¬ i = j ∧ ∃ p q, l.get? i = some p ∧ l.get? j = some q ∧ placedOverlap p q = true

/-- Transitive connectivity of result indices through pairwise overlap (one
cluster of the layout). -/
def overlapConnected (l : List Placed) : Nat → Nat → Prop :=
  Relation.ReflTransGen (overlapAdj l)

/-! ## Theorems -/

/-! ### Fold min/max lemmas -/

theorem foldl_min_mem (ds : List Int) (d : Int) : ds.foldl min d ∈ d :: ds := by
  induction ds generalizing d with
  | nil => simp
  | cons x xs ih =>
    rw [List.foldl_cons]
    rcases List.mem_cons.mp (ih (min d x)) with h1 | h1
    · rw [h1]
      rcases le_total d x with hdx | hxd
      · rw [min_eq_left hdx]; exact List.mem_cons_self _ _
      · rw [min_eq_right hxd]
        exact List.mem_cons_of_mem _ (List.mem_cons_self _ _)
    · exact List.mem_cons_of_mem _ (List.mem_cons_of_mem _ h1)

theorem foldl_min_le (ds : List Int) :
    ∀ (d x : Int), x ∈ d :: ds → ds.foldl min d ≤ x := by
  induction ds with
  | nil => intro d x hx; simp at hx; simp [hx]
  | cons y ys ih =>
    intro d x hx
    rw [List.foldl_cons]
    rcases List.mem_cons.mp hx with h1 | h1
    · rw [h1]
      exact le_trans (ih (min d y) (min d y) (List.mem_cons_self _ _)) (min_le_left _ _)
    · rcases List.mem_cons.mp h1 with h2 | h2
      · rw [h2]
        exact le_trans (ih (min d y) (min d y) (List.mem_cons_self _ _)) (min_le_right _ _)
      · exact ih (min d y) x (List.mem_cons_of_mem _ h2)

theorem le_foldl_max (ds : List Int) :
    ∀ (d x : Int), x ∈ d :: ds → x ≤ ds.foldl max d := by
  induction ds with
  | nil => intro d x hx; simp at hx; simp [hx]
  | cons y ys ih =>
    intro d x hx
    rw [List.foldl_cons]
    rcases List.mem_cons.mp hx with h1 | h1
    · rw [h1]
      exact le_trans (le_max_left _ _) (ih (max d y) (max d y) (List.mem_cons_self _ _))
    · rcases List.mem_cons.mp h1 with h2 | h2
      · rw [h2]
        exact le_trans (le_max_right _ _) (ih (max d y) (max d y) (List.mem_cons_self _ _))
      · exact ih (max d y) x (List.mem_cons_of_mem _ h2)

theorem foldl_max_mem (ds : List Int) (d : Int) : ds.foldl max d ∈ d :: ds := by
  induction ds generalizing d with
  | nil => simp
  | cons x xs ih =>
    rw [List.foldl_cons]
    rcases List.mem_cons.mp (ih (max d x)) with h1 | h1
    · rw [h1]
      rcases le_total d x with hdx | hxd
      · rw [max_eq_right hdx]
        exact List.mem_cons_of_mem _ (List.mem_cons_self _ _)
      · rw [max_eq_left hxd]; exact List.mem_cons_self _ _
    · exact List.mem_cons_of_mem _ (List.mem_cons_of_mem _ h1)


/-! ### Claim C5: window derivation -/

/-- C5: Window derivation is a total function of the item set: for zero
items it returns the current calendar month
(`[startOfMonth(now), endOfMonth(now)]`), and for one or more items it
returns `[startOfMonth(min over all start and end dates),
endOfMonth(max over all start and end dates)]`. -/
theorem claim_C5_window_derivation (som eom : Int → Int) (now : Int) :
    calculateTimelineRange som eom now [] = (som now, eom now) ∧
    ∀ tasks : List GTask, tasks ≠ [] →
      ∃ m M, calculateTimelineRange som eom now tasks = (som m, eom M) ∧
        m ∈ (tasks.flatMap fun t => [t.startDate, t.endDate]) ∧
        M ∈ (tasks.flatMap fun t => [t.startDate, t.endDate]) ∧
        ∀ d ∈ (tasks.flatMap fun t => [t.startDate, t.endDate]), m ≤ d ∧ d ≤ M := by
  refine ⟨rfl, ?_⟩
  intro tasks hne
  cases tasks with
  | nil => exact absurd rfl hne
  | cons t ts =>
    refine ⟨(t.endDate :: ts.flatMap fun t => [t.startDate, t.endDate]).foldl min t.startDate,
            (t.endDate :: ts.flatMap fun t => [t.startDate, t.endDate]).foldl max t.startDate,
            rfl, ?_, ?_, ?_⟩
    · simp only [List.flatMap_cons, List.cons_append, List.nil_append]
      exact foldl_min_mem _ t.startDate
    · simp only [List.flatMap_cons, List.cons_append, List.nil_append]
      exact foldl_max_mem _ t.startDate
    · intro d hd
      simp only [List.flatMap_cons, List.cons_append, List.nil_append] at hd
      exact ⟨foldl_min_le _ _ d hd, le_foldl_max _ _ d hd⟩

/-- Witness for C5 at a concrete input: one task spanning instants 1..5 with
identity month-alignment yields the window `(1, 5)`, with 1 and 5 the
minimum and maximum of the task's dates. -/
theorem claim_C5_window_derivation_witness :
    ∃ m M, calculateTimelineRange (fun x => x) (fun x => x) 0 [⟨1, 5, "s", "e"⟩] =
        (m, M) ∧
      m ∈ ([⟨1, 5, "s", "e"⟩] : List GTask).flatMap (fun t => [t.startDate, t.endDate]) ∧
      M ∈ ([⟨1, 5, "s", "e"⟩] : List GTask).flatMap (fun t => [t.startDate, t.endDate]) ∧
      ∀ d ∈ ([⟨1, 5, "s", "e"⟩] : List GTask).flatMap (fun t => [t.startDate, t.endDate]),
        m ≤ d ∧ d ≤ M := by
  obtain ⟨m, M, h⟩ :=
    (claim_C5_window_derivation (fun x => x) (fun x => x) 0).2 [⟨1, 5, "s", "e"⟩]
      (by decide)
  exact ⟨m, M, h⟩

/-! ### Claim C6: delta-to-date consistency -/

/-- C6: the day-granularity delta-to-date mapping satisfies
`delta(date, 0, ppu) = date` for every positive `ppu`, and
`delta(date, k * ppu, ppu) = date + k` whole days for every integer `k`,
with `newDate = originalDate + round(pixelDelta / ppu)`. -/
theorem claim_C6_delta_identity (d : Int) (p : ℚ) (hp : 0 < p) :
    calculateDateFromDelta d 0 p = d ∧
    ∀ k : Int, calculateDateFromDelta d ((k : ℚ) * p) p = d + k := by
  have hp' : p ≠ 0 := ne_of_gt hp
  constructor
  · show d + jsRound (0 / p) = d
    rw [zero_div]
    have : jsRound 0 = 0 := by
      show ⌊(0 : ℚ) + 1/2⌋ = 0
      norm_num [Int.floor_eq_iff]
    rw [this, add_zero]
  · intro k
    show d + jsRound ((k : ℚ) * p / p) = d + k
    rw [mul_div_assoc, div_self hp', mul_one]
    have : jsRound (k : ℚ) = k := by
      show ⌊(k : ℚ) + 1/2⌋ = k
      rw [add_comm]
      rw [Int.floor_add_int]
      norm_num
    rw [this]

/-- Witness for C6 at a concrete input: with `ppu = 2`, a zero pixel delta
leaves day 5 unchanged and a `3 * ppu` delta moves it to day 8. -/
theorem claim_C6_delta_identity_witness :
    (0 : ℚ) < 2 ∧ calculateDateFromDelta 5 0 2 = 5 ∧
      calculateDateFromDelta 5 (((3 : Int) : ℚ) * 2) 2 = 5 + 3 := by
  refine ⟨by norm_num, (claim_C6_delta_identity 5 2 (by norm_num)).1,
    (claim_C6_delta_identity 5 2 (by norm_num)).2 3⟩

/-! ### Claim C8: task position mapping bounds -/

/-- C8 counterexample: the window `[0, 30]` has `start ≤ end` and the task
`[-7, 4]` lies partially within it (the ranges intersect), yet the computed
`left` is negative, contradicting `left ∈ [0, 100]`. -/
theorem claim_C8_counterexample :
    (0 : Int) ≤ 30 ∧ (-7 : Int) ≤ 4 ∧
    (-7 : Int) ≤ 30 ∧ (0 : Int) ≤ 4 ∧
    (calculateTaskPosition (-7) 4 0 30).1 < 0 := by
  refine ⟨by norm_num, by norm_num, by norm_num, by norm_num, ?_⟩
  show ((-7 - 0 : Int) : ℚ) / ((30 - 0 + 1 : Int) : ℚ) * 100 < 0
  norm_num

/-- C8 as amended: for every window with `start ≤ end` and every item lying
fully within the window, the task position mapping returns
`left ∈ [0, 100]`, `width > 0`, and `left + width ≤ 100` (exact arithmetic,
`ε = 0`). -/
theorem claim_C8_amended (ts te Ts Te : Int)
    (h1 : Ts ≤ ts) (h2 : ts ≤ te) (h3 : te ≤ Te) :
    0 ≤ (calculateTaskPosition ts te Ts Te).1 ∧
    (calculateTaskPosition ts te Ts Te).1 ≤ 100 ∧
    0 < (calculateTaskPosition ts te Ts Te).2 ∧
    (calculateTaskPosition ts te Ts Te).1 + (calculateTaskPosition ts te Ts Te).2 ≤ 100 := by
  have hspanZ : (0 : Int) < Te - Ts + 1 := by omega
  have hspan : (0 : ℚ) < ((Te - Ts + 1 : Int) : ℚ) := by exact_mod_cast hspanZ
  have hleft : (calculateTaskPosition ts te Ts Te).1 =
      ((ts - Ts : Int) : ℚ) / ((Te - Ts + 1 : Int) : ℚ) * 100 := rfl
  have hwidth : (calculateTaskPosition ts te Ts Te).2 =
      ((te - ts + 1 : Int) : ℚ) / ((Te - Ts + 1 : Int) : ℚ) * 100 := rfl
  have hoff : (0 : ℚ) ≤ ((ts - Ts : Int) : ℚ) := by exact_mod_cast (by omega : (0:Int) ≤ ts - Ts)
  have hsp : (0 : ℚ) < ((te - ts + 1 : Int) : ℚ) := by
    exact_mod_cast (by omega : (0:Int) < te - ts + 1)
  refine ⟨?_, ?_, ?_, ?_⟩
  · rw [hleft]
    positivity
  · rw [hleft]
    rw [div_mul_eq_mul_div, div_le_iff₀ hspan]
    have : ((ts - Ts : Int) : ℚ) ≤ ((Te - Ts + 1 : Int) : ℚ) := by
      exact_mod_cast (by omega : (ts - Ts : Int) ≤ Te - Ts + 1)
    nlinarith
  · rw [hwidth]
    positivity
  · rw [hleft, hwidth]
    rw [div_mul_eq_mul_div, div_mul_eq_mul_div, div_add_div_same, div_le_iff₀ hspan]
    have : ((ts - Ts : Int) : ℚ) + ((te - ts + 1 : Int) : ℚ) ≤ ((Te - Ts + 1 : Int) : ℚ) := by
      have : (ts - Ts : Int) + (te - ts + 1) ≤ Te - Ts + 1 := by omega
      exact_mod_cast this
    nlinarith

/-- Witness for C8 (amended) at a concrete input: task days 3..5 inside the
window 0..9. -/
theorem claim_C8_amended_witness :
    0 ≤ (calculateTaskPosition 3 5 0 9).1 ∧
    (calculateTaskPosition 3 5 0 9).1 ≤ 100 ∧
    0 < (calculateTaskPosition 3 5 0 9).2 ∧
    (calculateTaskPosition 3 5 0 9).1 + (calculateTaskPosition 3 5 0 9).2 ≤ 100 :=
  claim_C8_amended 3 5 0 9 (by norm_num) (by norm_num) (by norm_num)

/-! ### Claim C4: preview-then-commit drag writes -/

/-- C4: on pointer-up of a preview-then-commit drag, a non-zero accumulated
day delta writes exactly the start and end date properties, both shifted by
the same delta; a zero net delta issues no date write (and the month-grid
drop's only-write-if-changed guard likewise writes nothing when the target
day equals the current day). -/
theorem claim_C4_commit_guard :
    (∀ (ev : CalendarEvent) (dp ep : String) (delta : Int), delta ≠ 0 →
      multiDayDragCommit ev dp ep delta =
        [⟨dp, ev.date + delta⟩, ⟨ep, ev.endDate.getD ev.date + delta⟩]) ∧
    (∀ (ev : CalendarEvent) (dp ep : String), multiDayDragCommit ev dp ep 0 = []) ∧
    (∀ (ev : CalendarEvent) (dp : String), eventDragEnd ev dp ev.date = none) := by
  refine ⟨?_, ?_, ?_⟩
  · intro ev dp ep delta hδ
    simp [multiDayDragCommit, hδ]
  · intro ev dp ep
    simp [multiDayDragCommit]
  · intro ev dp
    simp [eventDragEnd]

/-- Witness for C4 at a concrete input: delta 3 on an event spanning days
10..12 writes both properties shifted by 3. -/
theorem claim_C4_commit_guard_witness :
    multiDayDragCommit ⟨10, some 12⟩ "date" "due" 3 =
      [⟨"date", 10 + 3⟩, ⟨"due", (Option.getD (some 12) 10) + 3⟩] :=
  claim_C4_commit_guard.1 ⟨10, some 12⟩ "date" "due" 3 (by decide)

/-! ### Claim C9: drag of an event without an end date -/

/-- C9: committing a multi-day calendar drag of an event whose end date is
absent with a non-zero day delta writes exactly the start and the end date
properties, the end property receiving the shifted value of the original
start (the missing end defaults to the start); no other write is issued. -/
theorem claim_C9_missing_end (ev : CalendarEvent) (dp ep : String) (delta : Int)
    (hend : ev.endDate = none) (hδ : delta ≠ 0) :
    multiDayDragCommit ev dp ep delta =
      [⟨dp, ev.date + delta⟩, ⟨ep, ev.date + delta⟩] := by
  simp [multiDayDragCommit, hend, hδ]

/-- Witness for C9 at a concrete input: a single-day event on day 10 dragged
by 2 days writes both properties with value 12. -/
theorem claim_C9_missing_end_witness :
    multiDayDragCommit ⟨10, none⟩ "date" "due" 2 =
      [⟨"date", 10 + 2⟩, ⟨"due", 10 + 2⟩] :=
  claim_C9_missing_end ⟨10, none⟩ "date" "due" 2 rfl (by decide)

/-! ### Claim C7: group drop resolution -/

theorem findGroupGo_some (row : Int) (groups : List TaskGroup) (name : String)
    (h : findGroupGo row groups = some name) :
    ∃ g ∈ groups, g.name = name ∧ g.startRow ≤ row ∧ row < g.startRow + g.rowCount := by
  induction groups with
  | nil => simp [findGroupGo] at h
  | cons g gs ih =>
    by_cases hc : g.startRow ≤ row ∧ row < g.startRow + g.rowCount
    · rw [findGroupGo, if_pos hc] at h
      exact ⟨g, List.mem_cons_self _ _, (Option.some.injEq _ _).mp h, hc.1, hc.2⟩
    · rw [findGroupGo, if_neg hc] at h
      obtain ⟨g', hg', hrest⟩ := ih h
      exact ⟨g', List.mem_cons_of_mem _ hg', hrest⟩

/-- C7: on pointer-up of a task drag with grouping active, the destination
group is resolved as a group `g` whose row range
`[g.startRow, g.startRow + g.rowCount)` contains `floor(relativeY / rowHeight)`;
the group property is written only when the resolved group differs from the
original, and a resolved destination equal to the synthetic `"No Group"` is
written as the empty string. -/
theorem claim_C7_group_drop :
    (∀ (y rowHeight : ℚ) (groups : List TaskGroup) (name : String),
      findGroupAtPosition y groups rowHeight = some name →
      ∃ g ∈ groups, g.name = name ∧ g.startRow ≤ jsFloor (y / rowHeight) ∧
        jsFloor (y / rowHeight) < g.startRow + g.rowCount) ∧
    (∀ (groups : List TaskGroup) (gbp : String) (y rh : ℚ) (orig : String)
        (w : StrWrite),
      ganttDragEndGroupWrite groups gbp y rh orig = some w →
      ∃ n, findGroupAtPosition y groups rh = some n ∧ n ≠ orig ∧
        w.prop = gbp ∧ w.value = (if n = "No Group" then "" else n)) := by
  constructor
  · intro y rowHeight groups name h
    exact findGroupGo_some _ groups name h
  · intro groups gbp y rh orig w h
    unfold ganttDragEndGroupWrite at h
    split at h
    · split at h
      · rename_i n heq
        split at h
        · rename_i hn
          injection h with hw
          subst hw
          exact ⟨n, heq, hn.2, rfl, rfl⟩
        · exact absurd h (by simp)
      · exact absurd h (by simp)
    · exact absurd h (by simp)

/-- Witness for C7 at a concrete input: releasing at `y = 85` with row
height 40 resolves row 2, inside the group `"No Group"` occupying rows
`[2, 4)`; dragging a task out of group `"A"` there writes the empty string
to the group property. -/
theorem claim_C7_group_drop_witness :
    (∃ g ∈ [TaskGroup.mk "A" 0 2, TaskGroup.mk "No Group" 2 2],
      g.name = "No Group" ∧ g.startRow ≤ jsFloor ((85 : ℚ) / 40) ∧
        jsFloor ((85 : ℚ) / 40) < g.startRow + g.rowCount) ∧
    (∃ n, findGroupAtPosition 85 [TaskGroup.mk "A" 0 2, TaskGroup.mk "No Group" 2 2] 40 =
        some n ∧ n ≠ "A" ∧
      (StrWrite.mk "group" "").prop = "group" ∧
      (StrWrite.mk "group" "").value = (if n = "No Group" then "" else n)) := by
  have hfloor : jsFloor ((85 : ℚ) / 40) = 2 := by norm_num [jsFloor]
  have hfind : findGroupAtPosition 85 [TaskGroup.mk "A" 0 2, TaskGroup.mk "No Group" 2 2] 40 =
      some "No Group" := by
    unfold findGroupAtPosition
    rw [hfloor]
    rfl
  constructor
  · exact claim_C7_group_drop.1 85 40 _ "No Group" hfind
  · refine claim_C7_group_drop.2 _ "group" 85 40 "A" ⟨"group", ""⟩ ?_
    unfold ganttDragEndGroupWrite
    rw [if_pos (by decide), hfind]
    rfl

/-! ### Claim C1: resize validation in the two write disciplines -/

/-- C1 counterexample: in the preview-then-commit calendar resize, the
candidate new start produced by a `+1` day delta on the event
`(date 0, end 1)` equals the current end date (it is not strictly less than
it), yet the commit issues the write instead of skipping it. -/
theorem claim_C1_counterexample :
    calendarResizeCommit ⟨0, some 1⟩ "startProp" "endProp" Handle.hStart 1 =
      some ⟨"startProp", 1⟩ ∧
    ¬ ((1 : Int) < (CalendarEvent.mk 0 (some 1)).endDate.getD 0) := by
  exact ⟨rfl, by decide⟩

/-- C1 as amended: in the live-write gantt resize, each move's candidate is
validated strictly — a new start is written only when strictly less than
the current end, a new end only when strictly greater than the current
start — and a violating candidate is skipped, never clamped, so a start
handle dragged past the end date issues zero writes (Scenario B).  In the
preview-then-commit calendar resize, validation happens once at commit and
is non-strict: a new start is written only when `≤` the current end, a new
end only when `≥` the current start; violating candidates are skipped. -/
theorem claim_C1_amended :
    (∀ (task : GTask) (d p : ℚ) (w : DateWrite),
        ganttResizeMove task .hStart d p = some w → w.value < task.endDate) ∧
    (∀ (task : GTask) (d p : ℚ) (w : DateWrite),
        ganttResizeMove task .hEnd d p = some w → task.startDate < w.value) ∧
    (∀ (task : GTask) (d p : ℚ),
        task.endDate ≤ calculateDateFromDelta task.startDate d p →
        ganttResizeMove task .hStart d p = none) ∧
    (∀ (task : GTask) (p : ℚ) (moves : List ℚ),
        (∀ d ∈ moves, task.endDate ≤ calculateDateFromDelta task.startDate d p) →
        ganttResizeWrites task .hStart moves p = []) ∧
    (∀ (ev : CalendarEvent) (dp ep : String) (delta : Int) (w : DateWrite),
        calendarResizeCommit ev dp ep .hStart delta = some w →
        w.value ≤ ev.endDate.getD ev.date) ∧
    (∀ (ev : CalendarEvent) (dp ep : String) (delta : Int) (w : DateWrite),
        calendarResizeCommit ev dp ep .hEnd delta = some w →
        ev.date ≤ w.value) := by
  have hstart : ∀ (task : GTask) (d p : ℚ) (w : DateWrite),
      ganttResizeMove task .hStart d p = some w → w.value < task.endDate := by
    intro task d p w h
    simp only [ganttResizeMove] at h
    split at h
    · split at h
      · exact absurd h (by simp)
      · rename_i h2
        injection h with hw
        subst hw
        show calculateDateFromDelta task.startDate d p < task.endDate
        omega
    · exact absurd h (by simp)
  have hskip : ∀ (task : GTask) (d p : ℚ),
      task.endDate ≤ calculateDateFromDelta task.startDate d p →
      ganttResizeMove task .hStart d p = none := by
    intro task d p hviol
    simp only [ganttResizeMove]
    have hge : calculateDateFromDelta task.startDate d p ≥ task.endDate := by omega
    by_cases h1 : calculateDateFromDelta task.startDate d p ≠ task.startDate
    · rw [if_pos h1, if_pos hge]
    · rw [if_neg h1]
  refine ⟨hstart, ?_, hskip, ?_, ?_, ?_⟩
  · intro task d p w h
    simp only [ganttResizeMove] at h
    split at h
    · split at h
      · exact absurd h (by simp)
      · rename_i h2
        injection h with hw
        subst hw
        show task.startDate < calculateDateFromDelta task.endDate d p
        omega
    · exact absurd h (by simp)
  · intro task p moves hall
    unfold ganttResizeWrites
    rw [List.filterMap_eq_nil_iff]
    intro d hd
    rw [hskip task d p (hall d hd)]
  · intro ev dp ep delta w h
    simp only [calendarResizeCommit] at h
    split at h
    · split at h
      · rename_i h2
        injection h with hw
        subst hw
        exact h2
      · exact absurd h (by simp)
    · exact absurd h (by simp)
  · intro ev dp ep delta w h
    simp only [calendarResizeCommit] at h
    split at h
    · split at h
      · rename_i h2
        injection h with hw
        subst hw
        exact h2
      · exact absurd h (by simp)
    · exact absurd h (by simp)

/-- Witness for C1 (amended) at concrete inputs: a valid `+3`-day start
move on the task `[0, 10]` writes day 3, strictly before the end; the
Scenario B drag `[+12 days]` past the end issues zero writes; and a
calendar end-handle commit of `+2` on the event `(5, end 6)` writes day 8,
not before the start. -/
theorem claim_C1_amended_witness :
    (ganttResizeMove ⟨0, 10, "s", "e"⟩ .hStart 3 1 = some ⟨"s", 3⟩ ∧
      (DateWrite.mk "s" 3).value < (10 : Int)) ∧
    (ganttResizeWrites ⟨0, 9, "s", "e"⟩ .hStart [12] 1 = []) ∧
    (calendarResizeCommit ⟨5, some 6⟩ "d" "e" .hEnd 2 = some ⟨"e", 8⟩ ∧
      (5 : Int) ≤ (DateWrite.mk "e" 8).value) := by
  have hmove : ganttResizeMove ⟨0, 10, "s", "e"⟩ .hStart 3 1 = some ⟨"s", 3⟩ := by
    norm_num [ganttResizeMove, calculateDateFromDelta, jsRound]
  have hall : ∀ d ∈ ([12] : List ℚ),
      (GTask.mk 0 9 "s" "e").endDate ≤
        calculateDateFromDelta (GTask.mk 0 9 "s" "e").startDate d 1 := by
    intro d hd
    rw [List.mem_singleton] at hd
    subst hd
    norm_num [calculateDateFromDelta, jsRound]
  refine ⟨⟨hmove, ?_⟩, ?_, ⟨by decide, ?_⟩⟩
  · exact claim_C1_amended.1 ⟨0, 10, "s", "e"⟩ 3 1 ⟨"s", 3⟩ hmove
  · exact claim_C1_amended.2.2.2.1 ⟨0, 9, "s", "e"⟩ 1 [12] hall
  · exact claim_C1_amended.2.2.2.2.2 ⟨5, some 6⟩ "d" "e" 2 ⟨"e", 8⟩ (by decide)

/-! ### Overlap layout: the first free column -/

theorem length_filter_le_of_imp (l : List Nat) (p q : Nat → Bool)
    (h : ∀ x, p x = true → q x = true) :
    (l.filter p).length ≤ (l.filter q).length := by
  induction l with
  | nil => simp
  | cons x xs ih =>
    by_cases hp : p x = true
    · rw [List.filter_cons_of_pos hp, List.filter_cons_of_pos (h x hp)]
      simpa using ih
    · rw [List.filter_cons_of_neg (by simpa using hp)]
      by_cases hq : q x = true
      · rw [List.filter_cons_of_pos hq]
        exact le_trans ih (by simp)
      · rw [List.filter_cons_of_neg (by simpa using hq)]
        exact ih

theorem length_filter_succ_lt (occ : List Nat) (c : Nat) (hc : c ∈ occ) :
    (occ.filter fun x => decide (c + 1 ≤ x)).length <
      (occ.filter fun x => decide (c ≤ x)).length := by
  induction occ with
  | nil => simp at hc
  | cons x xs ih =>
    have hmono := length_filter_le_of_imp xs (fun x => decide (c + 1 ≤ x))
      (fun x => decide (c ≤ x)) (by intro x hx; simp at hx ⊢; omega)
    rcases List.mem_cons.mp hc with h1 | h1
    · subst h1
      rw [List.filter_cons_of_neg (by simp), List.filter_cons_of_pos (by simp)]
      simpa using Nat.lt_succ_of_le hmono
    · by_cases hx : c + 1 ≤ x
      · rw [List.filter_cons_of_pos (by simpa using hx),
          List.filter_cons_of_pos (by simp; omega)]
        simpa using ih h1
      · rw [List.filter_cons_of_neg (by simpa using hx)]
        by_cases hx2 : c ≤ x
        · rw [List.filter_cons_of_pos (by simpa using hx2)]
          exact lt_trans (ih h1) (by simp)
        · rw [List.filter_cons_of_neg (by simpa using hx2)]
          exact ih h1

theorem firstFreeColumnAux_not_mem :
    ∀ (fuel : Nat) (occ : List Nat) (c : Nat),
      (occ.filter fun x => decide (c ≤ x)).length < fuel →
      firstFreeColumnAux fuel occ c ∉ occ := by
  intro fuel
  induction fuel with
  | zero => intro occ c h; exact absurd h (by omega)
  | succ fuel ih =>
    intro occ c h
    rw [firstFreeColumnAux]
    by_cases hc : c ∈ occ
    · rw [if_pos hc]
      exact ih occ (c + 1) (by have := length_filter_succ_lt occ c hc; omega)
    · rw [if_neg hc]
      exact hc

theorem firstFreeColumn_not_mem (occ : List Nat) : firstFreeColumn occ ∉ occ := by
  refine firstFreeColumnAux_not_mem (occ.length + 1) occ 0 ?_
  have := List.length_filter_le (fun x => decide (0 ≤ x)) occ
  omega

/-! ### Overlap layout: the stable sort -/

theorem mem_sortInsert (r a : Rng) (l : List Rng) :
    a ∈ sortInsert r l ↔ a = r ∨ a ∈ l := by
  induction l with
  | nil => simp [sortInsert]
  | cons x xs ih =>
    rw [sortInsert]
    by_cases h : r.top ≤ x.top
    · rw [if_pos h]
      simp [List.mem_cons]
    · rw [if_neg h]
      simp [List.mem_cons, ih]
      tauto

theorem sortInsert_pairwise (r : Rng) (l : List Rng)
    (h : List.Pairwise rngLE l) : List.Pairwise rngLE (sortInsert r l) := by
  induction l with
  | nil => simp [sortInsert, rngLE]
  | cons x xs ih =>
    rw [sortInsert]
    obtain ⟨hx, hxs⟩ := List.pairwise_cons.mp h
    by_cases hle : r.top ≤ x.top
    · rw [if_pos hle]
      refine List.pairwise_cons.mpr ⟨?_, h⟩
      intro b hb
      rcases List.mem_cons.mp hb with h1 | h1
      · subst h1; exact hle
      · exact le_trans hle (hx b h1)
    · rw [if_neg hle]
      refine List.pairwise_cons.mpr ⟨?_, ih hxs⟩
      intro b hb
      rcases (mem_sortInsert r b xs).mp hb with h1 | h1
      · subst h1
        exact le_of_lt (lt_of_not_le hle)
      · exact hx b h1

theorem sortByTop_pairwise (l : List Rng) : List.Pairwise rngLE (sortByTop l) := by
  induction l with
  | nil => exact List.Pairwise.nil
  | cons r rs ih => exact sortInsert_pairwise r (sortByTop rs) ih

/-! ### Overlap layout: pass 1 assigns distinct columns to overlapping ranges -/

theorem pass1Go_get_rng :
    ∀ (rs : List Rng) (act : List ActiveEvent) (j : Nat) (p : Placed),
      (pass1Go act rs).get? j = some p →
      ∃ r, rs.get? j = some r ∧ p.top = r.top ∧ p.height = r.height := by
  intro rs
  induction rs with
  | nil => intro act j p h; simp [pass1Go] at h
  | cons r rs ih =>
    intro act j p h
    rw [pass1Go] at h
    cases j with
    | zero =>
      rw [List.get?_cons_zero] at h
      injection h with h
      exact ⟨r, rfl, by rw [← h], by rw [← h]⟩
    | succ k =>
      rw [List.get?_cons_succ] at h
      exact ih _ k p h

/-- Any entry of the active list still live at the `j`-th upcoming range
(its `endPos` exceeding that range's `top`) is assigned a column different
from the `j`-th output's column. -/
theorem pass1Go_active_distinct :
    ∀ (rs : List Rng), List.Pairwise rngLE rs →
      ∀ (act : List ActiveEvent) (a : ActiveEvent), a ∈ act →
        ∀ (j : Nat) (p : Placed), (pass1Go act rs).get? j = some p →
          p.top < a.endPos → p.column ≠ a.column := by
  intro rs
  induction rs with
  | nil => intro _ act a _ j p h; simp [pass1Go] at h
  | cons r rs ih =>
    intro hpw act a ha j p h hlive
    obtain ⟨hr, hpw'⟩ := List.pairwise_cons.mp hpw
    rw [pass1Go] at h
    cases j with
    | zero =>
      rw [List.get?_cons_zero] at h
      injection h with h
      subst h
      intro hcol
      have hmem : a ∈ act.filter fun ae => decide (ae.endPos > r.top) :=
        List.mem_filter.mpr ⟨ha, by simpa using hlive⟩
      have hcolmem : a.column ∈
          (act.filter fun ae => decide (ae.endPos > r.top)).map (·.column) :=
        List.mem_map.mpr ⟨a, hmem, rfl⟩
      rw [← hcol] at hcolmem
      exact firstFreeColumn_not_mem _ hcolmem
    | succ k =>
      rw [List.get?_cons_succ] at h
      have hrk : r.top ≤ p.top := by
        obtain ⟨r', hr', htop, _⟩ := pass1Go_get_rng rs _ k p h
        rw [htop]
        exact hr r' (List.get?_mem hr')
      have hstill : a ∈ act.filter fun ae => decide (ae.endPos > r.top) :=
        List.mem_filter.mpr ⟨ha, by simp; omega⟩
      exact ih hpw' _ a (List.mem_append_left _ hstill) k p h hlive

/-- Pass 1 gives different columns to any two overlapping outputs. -/
theorem pass1Go_distinct_cols :
    ∀ (rs : List Rng), List.Pairwise rngLE rs →
      ∀ (act : List ActiveEvent) (i j : Nat) (pi pj : Placed), i < j →
        (pass1Go act rs).get? i = some pi →
        (pass1Go act rs).get? j = some pj →
        eventsOverlap pi.top (pi.top + pi.height) pj.top (pj.top + pj.height) = true →
        pi.column ≠ pj.column := by
  intro rs
  induction rs with
  | nil => intro _ act i j pi pj _ hi _ _; simp [pass1Go] at hi
  | cons r rs ih =>
    intro hpw act i j pi pj hij hi hj hov
    obtain ⟨hr, hpw'⟩ := List.pairwise_cons.mp hpw
    rw [pass1Go] at hi hj
    cases i with
    | zero =>
      rw [List.get?_cons_zero] at hi
      injection hi with hi
      subst hi
      cases j with
      | zero => omega
      | succ k =>
        rw [List.get?_cons_succ] at hj
        have hov2 : pj.top < r.top + r.height := by
          have := (Bool.and_eq_true _ _).mp hov
          have h2 := of_decide_eq_true this.2
          simpa using h2
        have hnew : (⟨r.top + r.height,
            firstFreeColumn ((act.filter fun ae => decide (ae.endPos > r.top)).map
              (·.column))⟩ : ActiveEvent) ∈
            (act.filter fun ae => decide (ae.endPos > r.top)) ++
              [⟨r.top + r.height, firstFreeColumn
                ((act.filter fun ae => decide (ae.endPos > r.top)).map (·.column))⟩] :=
          List.mem_append_right _ (List.mem_singleton.mpr rfl)
        have := pass1Go_active_distinct rs hpw' _ _ hnew k pj hj hov2
        exact fun hc => this (by rw [← hc])
    | succ i' =>
      cases j with
      | zero => omega
      | succ k =>
        rw [List.get?_cons_succ] at hi hj
        exact ih hpw' _ i' k pi pj (by omega) hi hj hov

/-! ### Overlap layout: pass 2 keeps geometry and columns, raises widths -/

theorem le_foldl_of_step_le {α : Type} (f : Nat → α → Nat) (hf : ∀ m x, m ≤ f m x) :
    ∀ (l : List α) (init : Nat), init ≤ l.foldl f init := by
  intro l
  induction l with
  | nil => intro init; exact le_refl _
  | cons x xs ih => intro init; exact le_trans (hf init x) (ih (f init x))

theorem pass2_length (l : List Placed) : (pass2 l).length = l.length := by
  simp [pass2, List.enum_length]

theorem pass2_get? (l : List Placed) (i : Nat) (p : Placed) (h : l.get? i = some p) :
    (pass2 l).get? i = some { p with totalColumns :=
      (l.enum.foldl
        (fun m jq => if i ≠ jq.1 ∧ placedOverlap p jq.2 then max m jq.2.column else m)
        p.column) + 1 } := by
  unfold pass2
  rw [List.get?_map, List.enum_get?, h]
  rfl

/-- Pass 2 leaves `top`, `height` and `column` unchanged and makes
`totalColumns` exceed the element's own column. -/
theorem pass2_pointwise (l : List Placed) (i : Nat) (p : Placed)
    (h : l.get? i = some p) :
    ∃ p', (pass2 l).get? i = some p' ∧ p'.top = p.top ∧ p'.height = p.height ∧
      p'.column = p.column ∧ p.column < p'.totalColumns := by
  refine ⟨_, pass2_get? l i p h, rfl, rfl, rfl, ?_⟩
  have hstep : ∀ (m : Nat) (x : Nat × Placed),
      m ≤ (fun m jq =>
        if i ≠ jq.1 ∧ placedOverlap p jq.2 = true then max m jq.2.column else m) m x := by
    intro m x
    dsimp only
    by_cases hc : i ≠ x.1 ∧ placedOverlap p x.2 = true
    · rw [if_pos hc]; exact le_max_left _ _
    · rw [if_neg hc]
  exact Nat.lt_succ_of_le (le_foldl_of_step_le _ hstep l.enum p.column)

/-! ### Overlap layout: pass 3 as an evolution of `totalColumns` only -/

theorem evolves_refl (l : List Placed) : Evolves l l := by
  exact ⟨rfl, fun i p h => ⟨p, h, rfl, rfl, rfl, le_refl _⟩⟩

theorem evolves_trans {l₁ l₂ l₃ : List Placed}
    (h12 : Evolves l₁ l₂) (h23 : Evolves l₂ l₃) : Evolves l₁ l₃ := by
  refine ⟨h23.1.trans h12.1, ?_⟩
  intro i p h
  obtain ⟨p₂, h₂, ht₂, hh₂, hc₂, htc₂⟩ := h12.2 i p h
  obtain ⟨p₃, h₃, ht₃, hh₃, hc₃, htc₃⟩ := h23.2 i p₂ h₂
  exact ⟨p₃, h₃, ht₃.trans ht₂, hh₃.trans hh₂, hc₃.trans hc₂, htc₂.trans htc₃⟩

theorem pass3Step_evolves (lc : List Placed × Bool) (ij : Nat × Nat) :
    Evolves lc.1 (pass3Step lc ij).1 := by
  unfold pass3Step
  by_cases hij : ij.1 = ij.2
  · rw [if_pos hij]; exact evolves_refl _
  · rw [if_neg hij]
    cases hi : lc.1.get? ij.1 with
    | none => exact evolves_refl _
    | some p =>
      cases hj : lc.1.get? ij.2 with
      | none => exact evolves_refl _
      | some q =>
        dsimp only
        by_cases hov : placedOverlap p q = true
        · rw [if_pos hov]
          by_cases hmut : p.totalColumns ≠ max p.totalColumns q.totalColumns ∨
              q.totalColumns ≠ max p.totalColumns q.totalColumns
          · rw [if_pos hmut]
            constructor
            · simp [List.length_set]
            · intro k pk hk
              by_cases hk2 : k = ij.2
              · subst hk2
                rw [hj] at hk
                injection hk with hk
                subst hk
                refine ⟨{ q with totalColumns := max p.totalColumns q.totalColumns },
                  ?_, rfl, rfl, rfl, le_max_right _ _⟩
                rw [List.get?_set_eq, List.get?_set_ne _ _ hij, hj]
                rfl
              · by_cases hk1 : k = ij.1
                · subst hk1
                  rw [hi] at hk
                  injection hk with hk
                  subst hk
                  refine ⟨{ p with totalColumns := max p.totalColumns q.totalColumns },
                    ?_, rfl, rfl, rfl, le_max_left _ _⟩
                  rw [List.get?_set_ne _ _ (Ne.symm hk2), List.get?_set_eq, hi]
                  rfl
                · refine ⟨pk, ?_, rfl, rfl, rfl, le_refl _⟩
                  rw [List.get?_set_ne _ _ (fun h => hk2 h.symm),
                    List.get?_set_ne _ _ (fun h => hk1 h.symm), hk]
          · rw [if_neg hmut]; exact evolves_refl _
        · rw [if_neg hov]; exact evolves_refl _

/-! ### Overlap layout: pass 3 terminates in a quiescent state -/

theorem lt_length_of_get?_eq_some {α : Type} (l : List α) (i : Nat) (a : α)
    (h : l.get? i = some a) : i < l.length := by
  by_contra hlt
  rw [List.get?_eq_none.mpr (by omega)] at h
  exact Option.noConfusion h

theorem tcSum_cons (p : Placed) (l : List Placed) :
    tcSum (p :: l) = p.totalColumns + tcSum l := by
  simp [tcSum]

theorem tcSum_set (l : List Placed) :
    ∀ (i : Nat) (p a : Placed), l.get? i = some p →
      tcSum (l.set i a) + p.totalColumns = tcSum l + a.totalColumns := by
  induction l with
  | nil => intro i p a h; simp at h
  | cons x xs ih =>
    intro i p a h
    cases i with
    | zero =>
      rw [List.get?_cons_zero] at h
      injection h with h
      subst h
      rw [List.set_cons_zero, tcSum_cons, tcSum_cons]
      omega
    | succ k =>
      rw [List.get?_cons_succ] at h
      rw [List.set_cons_succ, tcSum_cons, tcSum_cons]
      have := ih k p a h
      omega

theorem tcSum_le_of_bounded (M : Nat) :
    ∀ (l : List Placed), tcBounded l M → tcSum l ≤ l.length * M := by
  intro l
  induction l with
  | nil => intro _; simp [tcSum]
  | cons x xs ih =>
    intro h
    have hx : x.totalColumns ≤ M := h 0 x rfl
    have hxs : tcBounded xs M := fun i p hp => h (i + 1) p (by rwa [List.get?_cons_succ])
    rw [tcSum_cons]
    have := ih hxs
    calc x.totalColumns + tcSum xs ≤ M + xs.length * M := by omega
      _ = (xs.length + 1) * M := by ring
      _ = (x :: xs).length * M := by rw [List.length_cons]

/-- Each pass-3 probe either leaves the state untouched or flags a change
and strictly raises the `totalColumns` sum. -/
theorem pass3Step_cases (lc : List Placed × Bool) (ij : Nat × Nat) :
    pass3Step lc ij = lc ∨
      ((pass3Step lc ij).2 = true ∧ tcSum lc.1 < tcSum (pass3Step lc ij).1) := by
  unfold pass3Step
  by_cases hij : ij.1 = ij.2
  · rw [if_pos hij]; left; rfl
  · rw [if_neg hij]
    cases hi : lc.1.get? ij.1 with
    | none => left; rfl
    | some p =>
      cases hj : lc.1.get? ij.2 with
      | none => left; rfl
      | some q =>
        dsimp only
        by_cases hov : placedOverlap p q = true
        · rw [if_pos hov]
          by_cases hmut : p.totalColumns ≠ max p.totalColumns q.totalColumns ∨
              q.totalColumns ≠ max p.totalColumns q.totalColumns
          · rw [if_pos hmut]
            right
            refine ⟨rfl, ?_⟩
            have hq' : (lc.1.set ij.1
                { p with totalColumns := max p.totalColumns q.totalColumns }).get? ij.2 =
                some q := by
              rw [List.get?_set_ne _ _ hij, hj]
            have h1 := tcSum_set
              (lc.1.set ij.1 { p with totalColumns := max p.totalColumns q.totalColumns })
              ij.2 q { q with totalColumns := max p.totalColumns q.totalColumns } hq'
            have h2 := tcSum_set lc.1 ij.1 p
              { p with totalColumns := max p.totalColumns q.totalColumns } hi
            have hmp : p.totalColumns ≤ max p.totalColumns q.totalColumns := le_max_left _ _
            have hmq : q.totalColumns ≤ max p.totalColumns q.totalColumns := le_max_right _ _
            dsimp only
            simp only at h1 h2
            set m := max p.totalColumns q.totalColumns with hm
            rcases hmut with hmut1 | hmut1 <;> omega
          · rw [if_neg hmut]; left; rfl
        · rw [if_neg hov]; left; rfl

/-- A no-op probe on a quiescent pair forces equal `totalColumns` for any
distinct overlapping pair it inspects. -/
theorem pass3Step_fix (l : List Placed) (i j : Nat) (p q : Placed)
    (hij : ¬ i = j) (hi : l.get? i = some p) (hj : l.get? j = some q)
    (hov : placedOverlap p q = true)
    (hfix : pass3Step (l, false) (i, j) = (l, false)) :
    p.totalColumns = q.totalColumns := by
  by_contra hne
  have hcond : p.totalColumns ≠ max p.totalColumns q.totalColumns ∨
      q.totalColumns ≠ max p.totalColumns q.totalColumns := by
    rcases le_or_lt p.totalColumns q.totalColumns with hle | hlt
    · left; rw [max_eq_right hle]; exact hne
    · right; rw [max_eq_left (le_of_lt hlt)]; exact fun h => hne h.symm
  unfold pass3Step at hfix
  rw [if_neg hij] at hfix
  dsimp only at hfix
  rw [hi, hj] at hfix
  dsimp only at hfix
  rw [if_pos hov, if_pos hcond] at hfix
  have := congrArg Prod.snd hfix
  simp at this

theorem pass3Step_bounded (M : Nat) (lc : List Placed × Bool) (ij : Nat × Nat)
    (h : tcBounded lc.1 M) : tcBounded (pass3Step lc ij).1 M := by
  unfold pass3Step
  by_cases hij : ij.1 = ij.2
  · rw [if_pos hij]; exact h
  · rw [if_neg hij]
    cases hi : lc.1.get? ij.1 with
    | none => exact h
    | some p =>
      cases hj : lc.1.get? ij.2 with
      | none => exact h
      | some q =>
        dsimp only
        by_cases hov : placedOverlap p q = true
        · rw [if_pos hov]
          by_cases hmut : p.totalColumns ≠ max p.totalColumns q.totalColumns ∨
              q.totalColumns ≠ max p.totalColumns q.totalColumns
          · rw [if_pos hmut]
            intro k pk hk
            have hpM : p.totalColumns ≤ M := h ij.1 p hi
            have hqM : q.totalColumns ≤ M := h ij.2 q hj
            by_cases hk2 : k = ij.2
            · subst hk2
              rw [List.get?_set_eq, List.get?_set_ne _ _ hij, hj] at hk
              injection hk with hk
              rw [← hk]
              simp only
              omega
            · by_cases hk1 : k = ij.1
              · subst hk1
                rw [List.get?_set_ne _ _ (Ne.symm hk2), List.get?_set_eq, hi] at hk
                injection hk with hk
                rw [← hk]
                simp only
                omega
              · rw [List.get?_set_ne _ _ (fun h => hk2 h.symm),
                  List.get?_set_ne _ _ (fun h => hk1 h.symm)] at hk
                exact h k pk hk
          · rw [if_neg hmut]; exact h
        · rw [if_neg hov]; exact h

theorem foldl_pass3Step_evolves (ps : List (Nat × Nat)) :
    ∀ (lc : List Placed × Bool), Evolves lc.1 ((ps.foldl pass3Step lc).1) := by
  induction ps with
  | nil => intro lc; exact evolves_refl _
  | cons ij ps ih =>
    intro lc
    exact evolves_trans (pass3Step_evolves lc ij) (ih (pass3Step lc ij))

theorem foldl_pass3Step_bounded (M : Nat) (ps : List (Nat × Nat)) :
    ∀ (lc : List Placed × Bool), tcBounded lc.1 M →
      tcBounded ((ps.foldl pass3Step lc).1) M := by
  induction ps with
  | nil => intro lc h; exact h
  | cons ij ps ih =>
    intro lc h
    exact ih (pass3Step lc ij) (pass3Step_bounded M lc ij h)

theorem foldl_pass3Step_sum_mono (ps : List (Nat × Nat)) :
    ∀ (lc : List Placed × Bool), tcSum lc.1 ≤ tcSum ((ps.foldl pass3Step lc).1) := by
  induction ps with
  | nil => intro lc; exact le_refl _
  | cons ij ps ih =>
    intro lc
    rcases pass3Step_cases lc ij with heq | ⟨_, hlt⟩
    · rw [List.foldl_cons, heq]; exact ih lc
    · exact le_trans (le_of_lt hlt) (ih (pass3Step lc ij))

theorem foldl_pass3Step_true (ps : List (Nat × Nat)) :
    ∀ (lc : List Placed × Bool), ((ps.foldl pass3Step lc).2 = true) →
      lc.2 = true ∨ tcSum lc.1 < tcSum ((ps.foldl pass3Step lc).1) := by
  induction ps with
  | nil => intro lc h; left; exact h
  | cons ij ps ih =>
    intro lc hfin
    rw [List.foldl_cons] at hfin ⊢
    rcases pass3Step_cases lc ij with heq | ⟨hfl, hlt⟩
    · rw [heq] at hfin ⊢
      exact ih lc hfin
    · right
      exact lt_of_lt_of_le hlt (foldl_pass3Step_sum_mono ps (pass3Step lc ij))

theorem foldl_pass3Step_false (ps : List (Nat × Nat)) :
    ∀ (lc : List Placed × Bool) (l1 : List Placed),
      ps.foldl pass3Step lc = (l1, false) →
      lc = (l1, false) ∧ ∀ ij ∈ ps, pass3Step (l1, false) ij = (l1, false) := by
  induction ps with
  | nil =>
    intro lc l1 h
    exact ⟨h, by simp⟩
  | cons ij ps ih =>
    intro lc l1 h
    rw [List.foldl_cons] at h
    obtain ⟨hstep, hps⟩ := ih (pass3Step lc ij) l1 h
    rcases pass3Step_cases lc ij with heq | ⟨hfl, _⟩
    · rw [heq] at hstep
      refine ⟨hstep, ?_⟩
      intro ij' hij'
      rcases List.mem_cons.mp hij' with h1 | h1
      · subst h1
        rw [← hstep, heq, hstep]
      · exact hps ij' h1
    · rw [hstep] at hfl
      exact absurd hfl (by simp)

theorem mem_indexPairs (n i j : Nat) : (i, j) ∈ indexPairs n ↔ i < n ∧ j < n := by
  simp only [indexPairs, List.mem_flatMap, List.mem_map, List.mem_range]
  constructor
  · rintro ⟨a, ha, b, hb, heq⟩
    injection heq with h1 h2
    subst h1
    subst h2
    exact ⟨ha, hb⟩
  · rintro ⟨hi, hj⟩
    exact ⟨i, hi, j, hj, rfl⟩

/-- A scan that reports no change leaves the list unchanged, and on it every
distinct overlapping pair already agrees on `totalColumns`. -/
theorem pass3Pass_false (l l1 : List Placed) (h : pass3Pass l = (l1, false)) :
    l1 = l ∧ ∀ i j p q, ¬ i = j → l.get? i = some p → l.get? j = some q →
      placedOverlap p q = true → p.totalColumns = q.totalColumns := by
  obtain ⟨hlc, hsteps⟩ := foldl_pass3Step_false (indexPairs l.length) (l, false) l1 h
  injection hlc with h1 _
  subst h1
  refine ⟨rfl, ?_⟩
  intro i j p q hij hi hj hov
  have hmem : (i, j) ∈ indexPairs l.length :=
    (mem_indexPairs _ i j).mpr
      ⟨lt_length_of_get?_eq_some l i p hi, lt_length_of_get?_eq_some l j q hj⟩
  exact pass3Step_fix l i j p q hij hi hj hov (hsteps (i, j) hmem)

/-- With fuel beyond the termination bound, the fixpoint loop reaches a
state in which every distinct overlapping pair shares one `totalColumns`. -/
theorem pass3Loop_pairs_eq (M : Nat) :
    ∀ (fuel : Nat) (l : List Placed), tcBounded l M →
      l.length * M + 1 ≤ fuel + tcSum l →
      ∀ i j p q, ¬ i = j → (pass3Loop fuel l).get? i = some p →
        (pass3Loop fuel l).get? j = some q → placedOverlap p q = true →
        p.totalColumns = q.totalColumns := by
  intro fuel
  induction fuel with
  | zero =>
    intro l hb hf i j p q hij hi hj hov
    have := tcSum_le_of_bounded M l hb
    omega
  | succ fuel ih =>
    intro l hb hf i j p q hij hi hj hov
    rw [pass3Loop] at hi hj
    cases hp : pass3Pass l with
    | mk l1 ch =>
      rw [hp] at hi hj
      dsimp only at hi hj
      cases ch with
      | false =>
        rw [if_neg (by simp)] at hi hj
        obtain ⟨hl1, hpairs⟩ := pass3Pass_false l l1 hp
        subst hl1
        exact hpairs i j p q hij hi hj hov
      | true =>
        rw [if_pos rfl] at hi hj
        have hev : Evolves l l1 := by
          have := foldl_pass3Step_evolves (indexPairs l.length) (l, false)
          rw [show (indexPairs l.length).foldl pass3Step (l, false) = (l1, true) from hp]
            at this
          exact this
        have hb1 : tcBounded l1 M := by
          have := foldl_pass3Step_bounded M (indexPairs l.length) (l, false) hb
          rw [show (indexPairs l.length).foldl pass3Step (l, false) = (l1, true) from hp]
            at this
          exact this
        have hsum : tcSum l < tcSum l1 := by
          have := foldl_pass3Step_true (indexPairs l.length) (l, false)
          rw [show (indexPairs l.length).foldl pass3Step (l, false) = (l1, true) from hp]
            at this
          rcases this rfl with h1 | h1
          · exact absurd h1 (by simp)
          · exact h1
        have hlen : l1.length = l.length := hev.1
        exact ih l1 hb1 (by rw [hlen]; omega) i j p q hij hi hj hov

/-! ### Overlap layout: bridging the passes to the final result -/

theorem get?_eq_some_of_lt {α : Type} (l : List α) (i : Nat) (h : i < l.length) :
    ∃ a, l.get? i = some a := by
  cases hg : l.get? i with
  | some a => exact ⟨a, rfl⟩
  | none =>
    rw [List.get?_eq_none] at hg
    omega

theorem le_foldl_max_nat (ds : List Nat) :
    ∀ (d x : Nat), x ∈ d :: ds → x ≤ ds.foldl max d := by
  induction ds with
  | nil => intro d x hx; simp at hx; simp [hx]
  | cons y ys ih =>
    intro d x hx
    rw [List.foldl_cons]
    rcases List.mem_cons.mp hx with h1 | h1
    · rw [h1]
      exact le_trans (le_max_left _ _) (ih (max d y) (max d y) (List.mem_cons_self _ _))
    · rcases List.mem_cons.mp h1 with h2 | h2
      · rw [h2]
        exact le_trans (le_max_right _ _) (ih (max d y) (max d y) (List.mem_cons_self _ _))
      · exact ih (max d y) x (List.mem_cons_of_mem _ h2)

theorem tc_le_maxTotalColumns (l : List Placed) (p : Placed) (hp : p ∈ l) :
    p.totalColumns ≤ maxTotalColumns l := by
  unfold maxTotalColumns
  exact le_foldl_max_nat (l.map (·.totalColumns)) 0 p.totalColumns
    (List.mem_cons_of_mem _ (List.mem_map.mpr ⟨p, hp, rfl⟩))

theorem pass3Loop_evolves : ∀ (fuel : Nat) (l : List Placed),
    Evolves l (pass3Loop fuel l) := by
  intro fuel
  induction fuel with
  | zero => intro l; exact evolves_refl _
  | succ fuel ih =>
    intro l
    rw [pass3Loop]
    cases hp : pass3Pass l with
    | mk l1 ch =>
      dsimp only
      have hev : Evolves l l1 := by
        have := foldl_pass3Step_evolves (indexPairs l.length) (l, false)
        rw [show (indexPairs l.length).foldl pass3Step (l, false) = (l1, ch) from hp]
          at this
        exact this
      cases ch with
      | false => rw [if_neg (by simp)]; exact hev
      | true => rw [if_pos rfl]; exact evolves_trans hev (ih l1)

/-- In the final layout, every distinct overlapping pair of entries shares
one `totalColumns` value. -/
theorem calculateEventLayout_pairs_eq (events : List Rng) (i j : Nat)
    (p q : Placed) (hij : ¬ i = j)
    (hi : (calculateEventLayout events).get? i = some p)
    (hj : (calculateEventLayout events).get? j = some q)
    (hov : placedOverlap p q = true) : p.totalColumns = q.totalColumns := by
  refine pass3Loop_pairs_eq (maxTotalColumns (pass2 (pass1Go [] (sortByTop events))))
    ((pass2 (pass1Go [] (sortByTop events))).length *
      maxTotalColumns (pass2 (pass1Go [] (sortByTop events))) + 1)
    (pass2 (pass1Go [] (sortByTop events)))
    ?_ ?_ i j p q hij hi hj hov
  · intro k pk hk
    exact tc_le_maxTotalColumns _ pk (List.get?_mem hk)
  · omega

/-- Geometry and column of each final-layout entry agree with the pass-1
output at the same index. -/
theorem calculateEventLayout_geom (events : List Rng) (i : Nat) (p : Placed)
    (h : (calculateEventLayout events).get? i = some p) :
    ∃ p1, (pass1Go [] (sortByTop events)).get? i = some p1 ∧
      p.top = p1.top ∧ p.height = p1.height ∧ p.column = p1.column ∧
      p1.column < p.totalColumns := by
  have hev : Evolves (pass2 (pass1Go [] (sortByTop events))) (calculateEventLayout events) :=
    pass3Loop_evolves _ _
  have hlen : (calculateEventLayout events).length =
      (pass1Go [] (sortByTop events)).length := by
    rw [hev.1, pass2_length]
  have hi1 : i < (pass1Go [] (sortByTop events)).length := by
    have := lt_length_of_get?_eq_some _ i p h
    omega
  obtain ⟨p1, hp1⟩ := get?_eq_some_of_lt _ i hi1
  obtain ⟨p2, hp2, ht2, hh2, hc2, htc2⟩ := pass2_pointwise _ i p1 hp1
  obtain ⟨p3, hp3, ht3, hh3, hc3, htc3⟩ := hev.2 i p2 hp2
  rw [h] at hp3
  injection hp3 with hp3
  subst hp3
  exact ⟨p1, hp1, ht3.trans ht2, hh3.trans hh2, hc3.trans hc2, by omega⟩

theorem eventsOverlap_symm (s1 e1 s2 e2 : Int)
    (h : eventsOverlap s1 e1 s2 e2 = true) : eventsOverlap s2 e2 s1 e1 = true := by
  simp only [eventsOverlap, Bool.and_eq_true, decide_eq_true_eq] at h ⊢
  omega

/-! ### Claim C2: intersecting ranges get distinct columns -/

/-- C2: in the overlap layout, any two result entries whose ranges intersect
(`start1 < end2` and `end1 > start2`) are assigned different column indices;
and a range ending exactly where another begins is not an overlap
(`eventsOverlap` is false whenever `end1 = start2`), so touching ranges
impose no column constraint. -/
theorem claim_C2_overlap_columns :
    (∀ (events : List Rng) (i j : Nat) (p q : Placed), ¬ i = j →
      (calculateEventLayout events).get? i = some p →
      (calculateEventLayout events).get? j = some q →
      eventsOverlap p.top (p.top + p.height) q.top (q.top + q.height) = true →
      p.column ≠ q.column) ∧
    (∀ s1 s2 e2 : Int, eventsOverlap s1 s2 s2 e2 = false) := by
  constructor
  · intro events i j p q hij hi hj hov
    obtain ⟨p1, hp1, hpt, hph, hpc, _⟩ := calculateEventLayout_geom events i p hi
    obtain ⟨q1, hq1, hqt, hqh, hqc, _⟩ := calculateEventLayout_geom events j q hj
    have hov1 : eventsOverlap p1.top (p1.top + p1.height) q1.top (q1.top + q1.height)
        = true := by
      rw [← hpt, ← hph, ← hqt, ← hqh]
      exact hov
    rw [hpc, hqc]
    rcases Nat.lt_or_ge i j with hlt | hge
    · exact pass1Go_distinct_cols (sortByTop events) (sortByTop_pairwise events)
        [] i j p1 q1 hlt hp1 hq1 hov1
    · have hlt : j < i := by omega
      exact (pass1Go_distinct_cols (sortByTop events) (sortByTop_pairwise events)
        [] j i q1 p1 hlt hq1 hp1
        (eventsOverlap_symm _ _ _ _ hov1)).symm
  · intro s1 s2 e2
    simp [eventsOverlap]

/-- Witness for C2 at a concrete input: the two overlapping ranges
09:00-10:00 and 09:30-10:30 (tops 540 and 570, heights 60) land in columns
0 and 1. -/
theorem claim_C2_overlap_columns_witness :
    (calculateEventLayout [⟨540, 60⟩, ⟨570, 60⟩]).get? 0 = some ⟨540, 60, 0, 2⟩ ∧
    (calculateEventLayout [⟨540, 60⟩, ⟨570, 60⟩]).get? 1 = some ⟨570, 60, 1, 2⟩ ∧
    (Placed.mk 540 60 0 2).column ≠ (Placed.mk 570 60 1 2).column := by
  refine ⟨by decide, by decide, ?_⟩
  exact claim_C2_overlap_columns.1 [⟨540, 60⟩, ⟨570, 60⟩] 0 1 ⟨540, 60, 0, 2⟩
    ⟨570, 60, 1, 2⟩ (by decide) (by decide) (by decide) (by decide)

/-! ### Claim C3: clusters share one totalColumns -/

/-- C3: after the fixpoint pass of the overlap layout, every member of one
transitively-connected overlap cluster has the identical `totalColumns`
value; concretely, for the three mutually overlapping ranges 09:00-10:00,
09:00-10:00 and 09:30-10:30 the assigned columns are 0, 1, 2 and all three
receive `totalColumns = 3`. -/
theorem claim_C3_cluster_totalColumns :
    (∀ (events : List Rng) (i j : Nat),
      overlapConnected (calculateEventLayout events) i j →
      ∀ p q, (calculateEventLayout events).get? i = some p →
        (calculateEventLayout events).get? j = some q →
        p.totalColumns = q.totalColumns) ∧
    calculateEventLayout [⟨540, 60⟩, ⟨540, 60⟩, ⟨570, 60⟩] =
      [⟨540, 60, 0, 3⟩, ⟨540, 60, 1, 3⟩, ⟨570, 60, 2, 3⟩] := by
  constructor
  · intro events i j hconn
    induction hconn with
    | refl =>
      intro p q hp hq
      rw [hp] at hq
      injection hq with hq
      rw [hq]
    | tail hab hbc ih =>
      intro p q hp hq
      obtain ⟨hneq, pb, pc, hgb, hgc, hov⟩ := hbc
      have h1 := ih p pb hp hgb
      have h2 := calculateEventLayout_pairs_eq events _ _ pb pc hneq hgb hgc hov
      rw [hgc] at hq
      injection hq with hq
      rw [h1, h2, hq]
  · decide

/-- Witness for C3 at a concrete input: in the three-event scenario, entries
0 and 2 are connected by a direct overlap and indeed share
`totalColumns = 3`. -/
theorem claim_C3_cluster_totalColumns_witness :
    overlapConnected (calculateEventLayout [⟨540, 60⟩, ⟨540, 60⟩, ⟨570, 60⟩]) 0 2 ∧
    (Placed.mk 540 60 0 3).totalColumns = (Placed.mk 570 60 2 3).totalColumns := by
  have hadj : overlapAdj (calculateEventLayout [⟨540, 60⟩, ⟨540, 60⟩, ⟨570, 60⟩]) 0 2 :=
    ⟨by decide, ⟨540, 60, 0, 3⟩, ⟨570, 60, 2, 3⟩, by decide, by decide, by decide⟩
  refine ⟨Relation.ReflTransGen.single hadj, ?_⟩
  exact claim_C3_cluster_totalColumns.1 [⟨540, 60⟩, ⟨540, 60⟩, ⟨570, 60⟩] 0 2
    (Relation.ReflTransGen.single hadj) ⟨540, 60, 0, 3⟩ ⟨570, 60, 2, 3⟩
    (by decide) (by decide)

/-! ### Claim C10: every entry's slice stays inside the row -/

/-- C10: every element of the overlap layout satisfies
`0 ≤ column < totalColumns` (pass 2 makes `totalColumns` exceed the
element's own column and pass 3 only raises it), so the rendered slice
`left = column * (100 / totalColumns)` percent with width
`100 / totalColumns` percent lies within the row's `[0, 100]` extent. -/
theorem claim_C10_layout_bounds (events : List Rng) (p : Placed)
    (hp : p ∈ calculateEventLayout events) :
    p.column < p.totalColumns ∧
    0 ≤ (p.column : ℚ) * (100 / (p.totalColumns : ℚ)) ∧
    (p.column : ℚ) * (100 / (p.totalColumns : ℚ)) + 100 / (p.totalColumns : ℚ) ≤ 100 := by
  obtain ⟨i, hi⟩ := List.mem_iff_get?.mp hp
  obtain ⟨p1, hp1, _, _, hc, hlt⟩ := calculateEventLayout_geom events i p hi
  have hcol : p.column < p.totalColumns := by omega
  refine ⟨hcol, ?_, ?_⟩
  · positivity
  · have htc : (0 : ℚ) < (p.totalColumns : ℚ) := by
      exact_mod_cast (by omega : 0 < p.totalColumns)
    have hle : ((p.column : ℚ) + 1) ≤ (p.totalColumns : ℚ) := by
      exact_mod_cast (by omega : p.column + 1 ≤ p.totalColumns)
    have hcalc : (p.column : ℚ) * (100 / (p.totalColumns : ℚ)) +
        100 / (p.totalColumns : ℚ) =
        ((p.column : ℚ) + 1) * (100 / (p.totalColumns : ℚ)) := by ring
    rw [hcalc]
    calc ((p.column : ℚ) + 1) * (100 / (p.totalColumns : ℚ))
        ≤ (p.totalColumns : ℚ) * (100 / (p.totalColumns : ℚ)) :=
          mul_le_mul_of_nonneg_right hle (by positivity)
      _ = 100 := by field_simp

/-- Witness for C10 at a concrete input: the first entry of the two-event
layout occupies the left half of the row. -/
theorem claim_C10_layout_bounds_witness :
    (Placed.mk 540 60 0 2).column < (Placed.mk 540 60 0 2).totalColumns ∧
    0 ≤ ((Placed.mk 540 60 0 2).column : ℚ) *
      (100 / ((Placed.mk 540 60 0 2).totalColumns : ℚ)) ∧
    ((Placed.mk 540 60 0 2).column : ℚ) *
      (100 / ((Placed.mk 540 60 0 2).totalColumns : ℚ)) +
      100 / ((Placed.mk 540 60 0 2).totalColumns : ℚ) ≤ 100 :=
  claim_C10_layout_bounds [⟨540, 60⟩, ⟨570, 60⟩] ⟨540, 60, 0, 2⟩ (by decide)

end BasesViews
